import Mathlib

set_option maxHeartbeats 1000000

/-!
Shallow embedding of the pycalcstats sources `statistics.py` and
`_stats_quantiles.py`.  Numeric values are modelled exactly: machine
integers by `ℤ`, `fractions.Fraction` values by `ℚ` (the Python class keeps
them in lowest terms, as `ℚ` does), and finite `decimal.Decimal` values by
their `as_tuple` form (sign, digit list, exponent).  Fallible code returns
`Except PyError`.  Non-finite values (inf, nan) and IEEE floats are outside
the embedding; no claim settled here depends on float rounding.
-/

/-- Python exception outcomes observable in the embedded code. -/
inductive PyError where
  | typeError
  | statisticsError (msg : String)
  | zeroDivisionError
  | assertionError
  | nameError
  | notImplementedError
  deriving DecidableEq

namespace Statistics

/-- Numeric kinds handled by `_coerce_types` in statistics.py: the four base
classes of its coercion table plus one behavioral subtype of `Decimal`,
standing in for the "subclasses trump their parent class" rule. -/
inductive PyKind where
  | int
  | fraction
  | decimal
  | float
  | decimalSub
  deriving DecidableEq, Fintype

/-- The `__base__` class of each embedded kind: `int`, `float` and `Decimal`
derive directly from `object`; `Fraction` from `numbers.Rational`; the
Decimal subtype from `Decimal`. -/
inductive PyBase where
  | object
  | rationalABC
  | decimalClass
  deriving DecidableEq

def pyBase : PyKind → PyBase
  | .int => .object
  | .fraction => .rationalABC
  | .decimal => .object
  | .float => .object
  | .decimalSub => .decimalClass

/-- `issubclass` on the embedded kinds: reflexive, and the only proper
subclass pair in the universe is `decimalSub ⊆ decimal`. -/
def pyIssubclass (a b : PyKind) : Bool :=
  a = b || (a = .decimalSub && b = .decimal)

/-- statistics.py `_coerce_types(T1, T2)`: the branches in source order.
The final `raise TypeError` becomes `Except.error .typeError`. -/
def _coerce_types (T1 T2 : PyKind) : Except PyError PyKind :=
  if T1 = T2 then .ok T1
  else if T1 = .int then .ok T2
  else if T2 = .int then .ok T1
  else if pyIssubclass T2 T1 then .ok T2
  else if pyIssubclass T1 T2 then .ok T1
  else if pyIssubclass T2 .float then .ok T2
  else if pyIssubclass T1 .float then .ok T1
  else if pyBase T1 = pyBase T2 then .ok T2
  else .error .typeError

/-- Embedded Python numeric values: `int`, `Fraction`, and finite `Decimal`
in `as_tuple` form.  Floats and non-finite values are not embedded. -/
inductive PyNum where
  | int (n : ℤ)
  | fraction (q : ℚ)
  | decimal (sign : Bool) (digits : List ℕ) (exp : ℤ)
  deriving DecidableEq

def kindOf : PyNum → PyKind
  | .int _ => .int
  | .fraction _ => .fraction
  | .decimal _ _ _ => .decimal

/-- The digit loop of `_decimal_to_ratio`: `num = num*10 + digit`. -/
def digitsVal (digits : List ℕ) : ℤ :=
  digits.foldl (fun acc d => acc * 10 + (d : ℤ)) 0

/-- Exact rational value of an embedded number. -/
def val : PyNum → ℚ
  | .int n => (n : ℚ)
  | .fraction q => q
  | .decimal s ds e => (if s then -1 else 1) * (digitsVal ds : ℚ) * (10 : ℚ) ^ e

/-- Denominator keys of the `partials` dict in `sum`.  For a Decimal with
positive exponent the source computes `den = 10**-exp`, which in Python is a
float, not an int; `nonint` marks that case.  Such a key later makes
`Fraction(n, d)` raise TypeError, so its numeric value is never consulted. -/
inductive Den where
  | nat (d : ℕ)
  | nonint
  deriving DecidableEq

/-- statistics.py `_decimal_to_ratio(d)` on a finite Decimal given by
`d.as_tuple()`.  The source computes `den = 10**-exp`: an integer when
`exp <= 0`, a float when `exp > 0` (the `nonint` case). -/
def _decimal_to_ratio (sign : Bool) (digits : List ℕ) (exp : ℤ) : ℤ × Den :=
  let num := digitsVal digits
  let num := if sign then -num else num
  (num, if exp ≤ 0 then Den.nat (10 ^ (-exp).toNat) else Den.nonint)

/-- statistics.py `_exact_ratio(x)` on finite embedded values: ints and
Fractions expose `numerator`/`denominator`; Decimals go through
`_decimal_to_ratio`.  (The inf/nan fallback branch is not representable.) -/
def _exact_ratio : PyNum → ℤ × Den
  | .int n => (n, .nat 1)
  | .fraction q => (q.num, .nat q.den)
  | .decimal s ds e => _decimal_to_ratio s ds e

/-- `partials[d] = partials.get(d, 0) + n`: add `n` at key `d`, inserting the
key at the end (Python dicts keep insertion order) when absent. -/
def updateParts : List (Den × ℤ) → Den → ℤ → List (Den × ℤ)
  | [], d, n => [(d, n)]
  | (d', m) :: rest, d, n =>
      if d' = d then (d', m + n) :: rest else (d', m) :: updateParts rest d n

/-- Rational value of one partials entry (`Fraction(n, d)`).  A `nonint`
key raises TypeError in the source before any value is used, so mapping it
to `0` here is never observable. -/
def partValue : Den × ℤ → ℚ
  | (.nat d, n) => (n : ℚ) / (d : ℚ)
  | (.nonint, _) => 0

/-- Exact total of the partials map, `sum(Fraction(n, d) for d, n in ...)`.
The source folds over `sorted(partials.items())`; in exact rational
arithmetic the iteration order does not affect the total, so the embedding
folds in insertion order. -/
def partsTotal (ps : List (Den × ℤ)) : ℚ :=
  (ps.map partValue).sum

/-- The per-element loop of `sum`: coerce to the running type, convert with
`_exact_ratio`, and accumulate the numerator under its denominator key. -/
def sumLoop : List PyNum → PyKind → List (Den × ℤ) →
    Except PyError (PyKind × List (Den × ℤ))
  | [], T, ps => .ok (T, ps)
  | x :: xs, T, ps =>
      match _coerce_types T (kindOf x) with
      | .error e => .error e
      | .ok T2 => sumLoop xs T2 (updateParts ps (_exact_ratio x).2 (_exact_ratio x).1)

/-- Results of `sum`, tagged with the coerced output kind.  In the Decimal
branch the source computes `T(total.numerator)/total.denominator` under the
active decimal context; the embedding keeps the exact quotient (the two
agree whenever the quotient fits the context precision, and no claim below
depends on that branch value).  The float branch is unreachable because the
embedding has no float values; it keeps the exact rational. -/
inductive SumValue where
  | int (n : ℤ)
  | fraction (q : ℚ)
  | decimal (q : ℚ)
  | float (q : ℚ)
  deriving DecidableEq

/-- Exact rational value of a `sum` result. -/
def sval : SumValue → ℚ
  | .int n => (n : ℚ)
  | .fraction q => q
  | .decimal q => q
  | .float q => q

/-- statistics.py `sum(data, start=0)`.  After the loop, a `nonint`
denominator key (a float `10**-exp` from a positive-exponent Decimal) makes
`Fraction(n, d)` raise TypeError; the `None in partials` non-finite branch
is unrepresentable here.  In the int branch the source asserts
`total.denominator == 1` and returns the numerator.  The source gives
`start` the default value 0; the embedding passes it explicitly. -/
def sum (data : List PyNum) (start : PyNum) :
    Except PyError SumValue :=
  match sumLoop data (kindOf start) [((_exact_ratio start).2, (_exact_ratio start).1)] with
  | .error e => .error e
  | .ok (T, ps) =>
  if ps.any (fun p => p.1 = Den.nonint) then
    .error .typeError
  else
    let total := partsTotal ps
    match T with
    | .int => if total.den = 1 then .ok (.int total.num) else .error .assertionError
    | .decimal => .ok (.decimal ((total.num : ℚ) / (total.den : ℚ)))
    | .decimalSub => .ok (.decimal ((total.num : ℚ) / (total.den : ℚ)))
    | .fraction => .ok (.fraction total)
    | .float => .ok (.float total)

/-- `x` is an embedded int or Fraction (the kinds whose `sum` path is fully
exact in both the source and the embedding). -/
def intOrFrac (x : PyNum) : Prop :=
  kindOf x = PyKind.int ∨ kindOf x = PyKind.fraction

instance (x : PyNum) : Decidable (intOrFrac x) := by
  unfold intOrFrac
  infer_instance

end Statistics

namespace StatsQuantiles

/-- The rounding-mode constants UP = 0, DOWN = 1, EVEN = 2 of
_stats_quantiles.py, as a closed enumeration. -/
inductive RoundingMode where
  | UP
  | DOWN
  | EVEN
  deriving DecidableEq

/-- _stats_quantiles.py `round(x, rounding_mode)`.  The source asserts
`x >= 0.0`, where Python `int(x)` is the floor and `x%1` the fractional
part; UP/DOWN/EVEN decide a tie at one half upward, downward, and to the
even neighbour. -/
def round (x : ℚ) (mode : RoundingMode) : ℤ :=
  let n := ⌊x⌋
  let f := x - n
  match mode with
  | .UP => if f ≥ 1/2 then n + 1 else n
  | .DOWN => if f > 1/2 then n + 1 else n
  | .EVEN =>
      if f > 1/2 then n + 1
      else if f < 1/2 then n
      else if n % 2 = 1 then n + 1 else n

/-- Python list indexing `data[k]`, wrapping a negative `k` to `len + k`.
Out-of-range access raises IndexError in the source and falls back to `0`
here; every claim-relevant call below is in range. -/
def pyIndex (data : List ℚ) (k : ℤ) : ℚ :=
  if k < 0 then data.getD (data.length - (-k).toNat) 0
  else data.getD k.toNat 0

/-- _stats_quantiles.py `inclusive(data)`: Tukey hinges of sorted data, the
median included in both halves. -/
def inclusive (data : List ℚ) : Except PyError (ℚ × ℚ × ℚ) :=
  let n := data.length
  let i : ℤ := ((n : ℤ) + 1) / 4
  let m : ℤ := (n : ℤ) / 2
  let q1q3 : ℚ × ℚ :=
    if n % 4 = 0 ∨ n % 4 = 3 then
      ((pyIndex data i + pyIndex data (i - 1)) / 2,
       (pyIndex data (-i - 1) + pyIndex data (-i)) / 2)
    else (pyIndex data i, pyIndex data (-i - 1))
  let q2 : ℚ :=
    if n % 2 = 0 then (pyIndex data (m - 1) + pyIndex data m) / 2
    else pyIndex data m
  .ok (q1q3.1, q2, q1q3.2)

/-- _stats_quantiles.py `exclusive(data)`: Moore and McCabe quartiles of
sorted data, the median excluded from both halves. -/
def exclusive (data : List ℚ) : Except PyError (ℚ × ℚ × ℚ) :=
  let n := data.length
  let i : ℤ := (n : ℤ) / 4
  let m : ℤ := (n : ℤ) / 2
  let q1q3 : ℚ × ℚ :=
    if n % 4 = 0 ∨ n % 4 = 1 then
      ((pyIndex data i + pyIndex data (i - 1)) / 2,
       (pyIndex data (-i - 1) + pyIndex data (-i)) / 2)
    else (pyIndex data i, pyIndex data (-i - 1))
  let q2 : ℚ :=
    if n % 2 = 0 then (pyIndex data (m - 1) + pyIndex data m) / 2
    else pyIndex data m
  .ok (q1q3.1, q2, q1q3.2)

/-- _stats_quantiles.py `ms(data)`, Mendenhall and Sincich quartiles.  The
source computes M and L and then executes
`assert (n-i) == round(3*(n+1)/4, DOWN)`; the name `i` is defined nowhere
in the module, so every call raises NameError at the assert, before the
return statement `(data[L-1], data[M-1], data[-L-1])` is reached. -/
def ms (data : List ℚ) : Except PyError (ℚ × ℚ × ℚ) :=
  let n := data.length
  let M := round (((n : ℚ) + 1) / 2) RoundingMode.EVEN
  let L := round (((n : ℚ) + 1) / 4) RoundingMode.UP
  let _ := (M, L)
  .error .nameError

/-- _stats_quantiles.py `interpolate(data, i)` as invoked by `minitab`,
whose rank arguments are always Python floats.  A fractional rank
interpolates between `data[int(i)]` and the next point; an integral rank
executes `data[i]` with a float index, which raises TypeError. -/
def interpolate (data : List ℚ) (i : ℚ) : Except PyError ℚ :=
  if i.den ≠ 1 then
    let j := ⌊i⌋
    let f := i - j
    let a := pyIndex data j
    let b := pyIndex data (j + 1)
    .ok (a + f * (b - a))
  else .error .typeError

/-- _stats_quantiles.py `minitab(data)`: linear interpolation at the ranks
`(n+1)/4`, `(n+1)/2` and `3(n+1)/4` (shifted to zero-based indexes). -/
def minitab (data : List ℚ) : Except PyError (ℚ × ℚ × ℚ) := do
  let n := data.length
  let M := ((n : ℚ) + 1) / 2 - 1
  let L := ((n : ℚ) + 1) / 4 - 1
  let U := 3 * ((n : ℚ) + 1) / 4 - 1
  let qL ← interpolate data L
  let qM ← interpolate data M
  let qU ← interpolate data U
  .ok (qL, qM, qU)

/-- _stats_quantiles.py `excel(data)`: `raise NotImplementedError`. -/
def excel (_ : List ℚ) : Except PyError (ℚ × ℚ × ℚ) :=
  .error .notImplementedError

/-- _stats_quantiles.py `QUARTILE_MAP`: numeric selectors for quartiles. -/
def QUARTILE_MAP : List (ℕ × (List ℚ → Except PyError (ℚ × ℚ × ℚ))) :=
  [(0, inclusive), (1, exclusive), (2, ms), (3, minitab), (4, excel)]

/-- _stats_quantiles.py `QUARTILE_ALIASES`: lowercase aliases for the
numeric quartile selectors. -/
def QUARTILE_ALIASES : List (String × ℕ) :=
  [("inclusive", 0), ("incl", 0), ("tukey", 0), ("hinges", 0),
   ("exclusive", 1), ("excl", 1), ("m&m", 1), ("ti-85", 1),
   ("m&s", 2), ("minitab", 3), ("fp", 4), ("excel", 4)]

/-- _stats_quantiles.py `placeholder(data, p)`: a stub whose body is
`pass`, returning None. -/
def placeholder (_ : List ℚ) (_ : ℚ) : Option ℚ :=
  none

def r1 : List ℚ → ℚ → Option ℚ := placeholder

def r2 : List ℚ → ℚ → Option ℚ := placeholder

def r3 : List ℚ → ℚ → Option ℚ := placeholder

def r4 : List ℚ → ℚ → Option ℚ := placeholder

def r5 : List ℚ → ℚ → Option ℚ := placeholder

def r6 : List ℚ → ℚ → Option ℚ := placeholder

def r7 : List ℚ → ℚ → Option ℚ := placeholder

def r8 : List ℚ → ℚ → Option ℚ := placeholder

def r9 : List ℚ → ℚ → Option ℚ := placeholder

/-- _stats_quantiles.py `QUANTILE_MAP`: numeric selectors for quantiles
(all mapped to `placeholder` in the source). -/
def QUANTILE_MAP : List (ℕ × (List ℚ → ℚ → Option ℚ)) :=
  [(0, placeholder), (1, r1), (2, r2), (3, r3), (4, r4), (5, r5),
   (6, r6), (7, r7), (8, r8), (9, r9)]

/-- _stats_quantiles.py `QUANTILE_ALIASES`: lowercase aliases for the
numeric quantile selectors. -/
def QUANTILE_ALIASES : List (String × ℕ) :=
  [("sas-1", 4), ("sas-2", 3), ("sas-3", 1), ("sas-4", 6), ("sas-5", 2),
   ("excel", 7)]

end StatsQuantiles

namespace Statistics

/-- Python `sorted(data)` on rationals: ascending order.  (Python sorting is
stable; on plain numeric values stability is unobservable.) -/
def pySorted (data : List ℚ) : List ℚ :=
  List.insertionSort (· ≤ ·) data

/-- statistics.py `mean(data)`: `sum(data)/n` after rejecting empty input.
On rational data the module `sum` returns the exact rational total, which
is how the embedding computes it. -/
def mean (data : List ℚ) : Except PyError ℚ :=
  if data.length < 1 then
    .error (.statisticsError "mean requires at least one data point")
  else .ok (data.sum / (data.length : ℚ))

/-- statistics.py `median(data)`: sort; an odd length takes the middle data
point, an even length averages the two middle points. -/
def median (data : List ℚ) : Except PyError ℚ :=
  let d := pySorted data
  let n := d.length
  if n = 0 then .error (.statisticsError "no median for empty data")
  else if n % 2 = 1 then .ok (d.getD (n / 2) 0)
  else .ok ((d.getD (n / 2 - 1) 0 + d.getD (n / 2) 0) / 2)

/-- First occurrences of each distinct element, in encounter order: the key
order of `collections.Counter(data)` (Python dicts keep insertion order). -/
def firstKeys {α : Type} [DecidableEq α] : List α → List α
  | [] => []
  | a :: l => a :: firstKeys (l.filter (fun x => x ≠ a))
termination_by l => l.length
decreasing_by
  simp only [List.length_cons]
  exact Nat.lt_succ_of_le (List.length_filter_le _ _)

/-- Ordering of frequency-table entries by descending count, as used by
`Counter.most_common()`. -/
def freqGE {α : Type} (p q : α × ℕ) : Prop :=
  q.2 ≤ p.2

instance {α : Type} : DecidableRel (@freqGE α) :=
  fun p q => inferInstanceAs (Decidable (q.2 ≤ p.2))

instance {α : Type} : IsTotal (α × ℕ) freqGE :=
  ⟨fun a b => le_total b.2 a.2⟩

instance {α : Type} : IsTrans (α × ℕ) freqGE :=
  ⟨fun _ _ _ h h2 => le_trans h2 h⟩

/-- statistics.py `_counts(data)`: the `Counter(data).most_common()` table
of (value, frequency) pairs sorted by descending frequency, truncated at
the first entry whose frequency differs from the top one.  Ties keep
first-encounter order (Counter iterates in insertion order and Python
sorting is stable, as is insertion sort). -/
def _counts {α : Type} [DecidableEq α] (data : List α) : List (α × ℕ) :=
  match List.insertionSort freqGE ((firstKeys data).map (fun a => (a, data.count a))) with
  | [] => []
  | t :: rest => (t :: rest).takeWhile (fun p => p.2 = t.2)

/-- statistics.py `mode(data)`: the unique most common value;
StatisticsError on a frequency tie (the source interpolates the number of
tied values into the message) or on empty input.  The source `mode` takes
no other parameter. -/
def mode {α : Type} [DecidableEq α] (data : List α) : Except PyError α :=
  match _counts data with
  | [p] => .ok p.1
  | [] => .error (.statisticsError "no mode for empty data")
  | _ => .error (.statisticsError "no unique mode")

/-- The body of `_ss` once the center `c` is fixed: the corrected sum of
squared deviations `sum((x-c)**2) - sum(x-c)**2/len(data)`, exact on
rationals.  `assert not ss < 0` surfaces a negative corrected value as
AssertionError; empty `data` makes the correction term divide by zero. -/
def ssAt (data : List ℚ) (c : ℚ) : Except PyError ℚ :=
  if data.length = 0 then .error .zeroDivisionError
  else
    let ss0 := (data.map (fun x => (x - c) ^ 2)).sum
    let ss := ss0 - ((data.map (fun x => x - c)).sum) ^ 2 / (data.length : ℚ)
    if ss < 0 then .error .assertionError else .ok ss

/-- statistics.py `_ss(data, c=None)`: with `c = None` the mean is computed
first (failing on empty input); otherwise deviations are taken from the
externally supplied center. -/
def _ss (data : List ℚ) (c : Option ℚ) : Except PyError ℚ :=
  match c with
  | none =>
      match mean data with
      | .error e => .error e
      | .ok m => ssAt data m
  | some cv => ssAt data cv

/-- Duplicate every element in place: `dup [a, b] = [a, a, b, b]`. -/
def dup {α : Type} : List α → List α
  | [] => []
  | a :: l => a :: a :: dup l

end Statistics

namespace RQuantile

/-- Modelled from the spec: the quantile engine (`stats.order.quantile`) is
absent from src/ — `_stats_quantiles.py` registers only placeholder
functions for schemes 1-9, and only the test suite exercises the real
implementation.  The spec describes the nine named schemes as the nine
R-compatible algorithms: schemes 1-3 select order statistics with a
scheme-specific rounding rule and no interpolation, schemes 4-9 interpolate
linearly between adjacent order statistics at a rank
`p*n + constant-per-scheme` clamped to `[1, n]`.  `nthData data k` is the
1-based order statistic; out-of-range ranks give `0`, kept unreachable by
the clamping. -/
def nthData (data : List ℚ) (k : ℤ) : ℚ :=
  data.getD (k - 1).toNat 0

/-- Modelled from the spec: an integer rank clamped to `[1, n]`. -/
def clampIdx (n : ℕ) (k : ℤ) : ℤ :=
  max 1 (min k (n : ℤ))

/-- Modelled from the spec: a continuous rank clamped to `[1, n]`. -/
def clampRank (n : ℕ) (h : ℚ) : ℚ :=
  max 1 (min h (n : ℚ))

/-- Modelled from the spec: the continuous rank `p*n + constant-per-scheme`
of the interpolating schemes, with the R constants: h4 = np, h5 = np + 1/2,
h6 = (n+1)p, h7 = (n-1)p + 1, h8 = (n + 1/3)p + 1/3, h9 = (n + 1/4)p + 3/8. -/
def contRank (scheme : ℕ) (n : ℕ) (p : ℚ) : ℚ :=
  match scheme with
  | 4 => (n : ℚ) * p
  | 5 => (n : ℚ) * p + 1/2
  | 6 => ((n : ℚ) + 1) * p
  | 7 => ((n : ℚ) - 1) * p + 1
  | 8 => ((n : ℚ) + 1/3) * p + 1/3
  | 9 => ((n : ℚ) + 1/4) * p + 3/8
  | _ => 0

/-- Modelled from the spec: linear interpolation between the adjacent order
statistics around the clamped continuous rank `h`. -/
def interpAt (data : List ℚ) (h : ℚ) : ℚ :=
  let s := clampRank data.length h
  nthData data ⌊s⌋ + (s - ⌊s⌋) * (nthData data ⌈s⌉ - nthData data ⌊s⌋)

/-- Modelled from the spec: `quantile(data, p, scheme)` for the nine named
R-compatible schemes on sorted data.  Schemes 1-3 are pure order statistics:
scheme 1 moves the rank `np` up on a nonzero fractional part, scheme 2
averages the two adjacent order statistics at a discontinuity, scheme 3
rounds `np` to the nearest rank with ties to even.  Schemes 4-9 interpolate
at their continuous rank. -/
def quantileNamed (scheme : ℕ) (data : List ℚ) (p : ℚ) : ℚ :=
  let n := data.length
  match scheme with
  | 1 =>
      let j := ⌊(n : ℚ) * p⌋
      let g := (n : ℚ) * p - j
      nthData data (clampIdx n (if 0 < g then j + 1 else j))
  | 2 =>
      let j := ⌊(n : ℚ) * p⌋
      let g := (n : ℚ) * p - j
      if g = 0 then
        (nthData data (clampIdx n j) + nthData data (clampIdx n (j + 1))) / 2
      else nthData data (clampIdx n (j + 1))
  | 3 =>
      let j := ⌊(n : ℚ) * p - 1/2⌋
      let g := (n : ℚ) * p - 1/2 - j
      nthData data (clampIdx n (if g = 0 ∧ j % 2 = 0 then j else j + 1))
  | s => interpAt data (contRank s n p)

/-- Modelled from the spec and the repository test suite
(`CompareParameterizedQuantiles`): the explicit four-parameter
(Mathematica-style) quantile rule.  With `h = a + (n + b)*p` clamped to
`[1, n]`, the result is
`x_floor(h) + (c + d*(h - floor h)) * (x_ceil(h) - x_floor(h))`. -/
def quantileParam (data : List ℚ) (p : ℚ) (a b c d : ℚ) : ℚ :=
  let n := data.length
  let h := clampRank n (a + ((n : ℚ) + b) * p)
  nthData data ⌊h⌋ + (c + d * (h - ⌊h⌋)) * (nthData data ⌈h⌉ - nthData data ⌊h⌋)

end RQuantile

deriving instance DecidableEq for Except

/-- C2: the coercion function on numeric kinds satisfies, in priority order:
identical kinds return that kind; int combined with any kind returns the
other kind; the more specific of a subtype pair wins (here the Decimal
subtype against Decimal); float combined with exact-rational or
fixed-precision-decimal (or its subtype) yields float; and exact-rational
combined with fixed-precision-decimal raises TypeError. -/
theorem coerce_types_lattice_rules :
    (∀ T : Statistics.PyKind, Statistics._coerce_types T T = .ok T)
    ∧ (∀ T : Statistics.PyKind,
        Statistics._coerce_types .int T = .ok T
        ∧ Statistics._coerce_types T .int = .ok T)
    ∧ (Statistics._coerce_types .decimal .decimalSub = .ok .decimalSub
       ∧ Statistics._coerce_types .decimalSub .decimal = .ok .decimalSub)
    ∧ (Statistics._coerce_types .float .fraction = .ok .float
       ∧ Statistics._coerce_types .fraction .float = .ok .float
       ∧ Statistics._coerce_types .float .decimal = .ok .float
       ∧ Statistics._coerce_types .decimal .float = .ok .float
       ∧ Statistics._coerce_types .float .decimalSub = .ok .float
       ∧ Statistics._coerce_types .decimalSub .float = .ok .float)
    ∧ (Statistics._coerce_types .fraction .decimal = .error .typeError
       ∧ Statistics._coerce_types .decimal .fraction = .error .typeError
       ∧ Statistics._coerce_types .fraction .decimalSub = .error .typeError
       ∧ Statistics._coerce_types .decimalSub .fraction = .error .typeError) := by
  decide

/-- C5: the inclusive (Tukey) and exclusive (Moore-McCabe) quartile schemes
on the sorted ranges 1..8, 1..9, 1..10 and 1..11 return exactly the
Dr. Math reference hinge values; in particular both give Q1 = 2.5 and
Q3 = 6.5 on 1..8. -/
theorem quartiles_drmath_reference_values :
    StatsQuantiles.inclusive [1,2,3,4,5,6,7,8] = .ok (5/2, 9/2, 13/2)
    ∧ StatsQuantiles.inclusive [1,2,3,4,5,6,7,8,9] = .ok (3, 5, 7)
    ∧ StatsQuantiles.inclusive [1,2,3,4,5,6,7,8,9,10] = .ok (3, 11/2, 8)
    ∧ StatsQuantiles.inclusive [1,2,3,4,5,6,7,8,9,10,11] = .ok (7/2, 6, 17/2)
    ∧ StatsQuantiles.exclusive [1,2,3,4,5,6,7,8] = .ok (5/2, 9/2, 13/2)
    ∧ StatsQuantiles.exclusive [1,2,3,4,5,6,7,8,9] = .ok (5/2, 5, 15/2)
    ∧ StatsQuantiles.exclusive [1,2,3,4,5,6,7,8,9,10] = .ok (3, 11/2, 8)
    ∧ StatsQuantiles.exclusive [1,2,3,4,5,6,7,8,9,10,11] = .ok (3, 6, 9) := by
  with_unfolding_all decide

/-- C6: the Mendenhall-Sincich quartile function `ms` raises NameError on
every input (here the sorted range 1..8): its assert statement evaluates
the name `i`, which is defined nowhere in the module, so the rank-based
selection described by the claim is never reached. -/
theorem ms_raises_name_error :
    StatsQuantiles.ms [1,2,3,4,5,6,7,8] = .error .nameError := by
  with_unfolding_all rfl

/-- C9: every alias in the quartile and quantile alias tables maps to a key
of the corresponding scheme registry, and looking up an unknown numeric
code or alias in any of the four tables yields no entry (a KeyError in the
source) rather than a silent default. -/
theorem scheme_alias_tables_resolve :
    (StatsQuantiles.QUARTILE_ALIASES.all
      (fun p => (StatsQuantiles.QUARTILE_MAP.lookup p.2).isSome)) = true
    ∧ (StatsQuantiles.QUANTILE_ALIASES.all
      (fun p => (StatsQuantiles.QUANTILE_MAP.lookup p.2).isSome)) = true
    ∧ (StatsQuantiles.QUARTILE_MAP.lookup 5).isNone = true
    ∧ (StatsQuantiles.QUANTILE_MAP.lookup 10).isNone = true
    ∧ (StatsQuantiles.QUARTILE_ALIASES.lookup "spam").isNone = true
    ∧ (StatsQuantiles.QUANTILE_ALIASES.lookup "spam").isNone = true := by
  decide

/-- C10: `sum([], start)` returns the start value for the plain default
`start = 0`, but for the positive-exponent Decimal start `Decimal("1E+2")`
it raises TypeError: `_exact_ratio` hands the partials dict the float
denominator `10**-2`, and `Fraction(1, 0.01)` is rejected.  The source
docstring promises that an empty `data` returns `start`. -/
theorem sum_empty_decimal_start_type_error :
    Statistics.sum [] (Statistics.PyNum.int 0) = .ok (.int 0)
    ∧ Statistics.sum [] (Statistics.PyNum.decimal false [1] 2) = .error .typeError := by
  with_unfolding_all decide

/-- C1 counterexample: summing the single Decimal `Decimal("1E+2")` raises
TypeError instead of returning its exact value 100, because
`_decimal_to_ratio` produces the float denominator `10**-2` and
`Fraction(n, d)` rejects it.  So `sum` is not exact on every decimal-only
input. -/
theorem sum_decimal_positive_exponent_type_error :
    Statistics.sum [Statistics.PyNum.decimal false [1] 2] (Statistics.PyNum.int 0)
      = .error .typeError := by
  with_unfolding_all rfl

/-- C4 counterexample: on `[5, 3, 2, 1, 5, 4, 2, 2, 5]` the top frequency 3
is shared by the values 5 and 2, and `mode` raises StatisticsError; it does
not return `[2, 5]`, and the source `mode` accepts no `max_modes`
argument. -/
theorem mode_two_tied_values_raises :
    Statistics.mode ([5,3,2,1,5,4,2,2,5] : List ℤ)
      = .error (.statisticsError "no unique mode") := by
  with_unfolding_all rfl

/-- C3 counterexample: scheme 3 disagrees with the four-parameter rule
`(1/2, 0, 0, 0)` that the repository test suite pairs with it: on the
sorted data 1..4 at p = 5/8 the rank `np = 5/2` lies exactly half way, the
named scheme rounds to the even rank 2 while the parameterized formula
truncates `1/2 + np = 3` to rank 3, giving 2 against 3.  (For scheme 2 the
test suite records that no parameter tuple exists at all.) -/
theorem r3_param_formula_disagreement :
    RQuantile.quantileNamed 3 [1,2,3,4] (5/8)
      ≠ RQuantile.quantileParam [1,2,3,4] (5/8) (1/2) 0 0 0 := by
  with_unfolding_all decide

/-- Helper for C7: a value returned by the fixed-center body of `_ss` passed
its nonnegativity assert. -/
theorem ssAt_nonneg (data : List ℚ) (c v : ℚ)
    (h : Statistics.ssAt data c = .ok v) : 0 ≤ v := by
  unfold Statistics.ssAt at h
  split at h
  · exact absurd h (by simp)
  · dsimp only at h
    split at h
    · exact absurd h (by simp)
    · rename_i hneg
      rw [Except.ok.injEq] at h
      subst h
      exact le_of_not_lt hneg

/-- C7: the sum-of-squared-deviations routine `_ss` never returns a negative
value as a valid result: whatever center is supplied (or the mean, when
none is), every `ok` outcome is nonnegative, a negative corrected sum being
diverted to AssertionError by the assert in the source. -/
theorem ss_never_negative (data : List ℚ) (c : Option ℚ) (v : ℚ)
    (h : Statistics._ss data c = .ok v) : 0 ≤ v := by
  cases c with
  | some cv => exact ssAt_nonneg data cv v h
  | none =>
    simp only [Statistics._ss] at h
    cases hm : Statistics.mean data with
    | error e => rw [hm] at h; exact absurd h (by simp)
    | ok m =>
      rw [hm] at h
      exact ssAt_nonneg data m v h

/-- C7 witness: `_ss([1, 2, 3])` computes the valid result 2, which the
theorem reports as nonnegative. -/
theorem ss_never_negative_witness :
    Statistics._ss [1,2,3] none = Except.ok 2 ∧ (0 : ℚ) ≤ 2 :=
  ⟨by with_unfolding_all rfl,
   ss_never_negative [1,2,3] none 2 (by with_unfolding_all rfl)⟩

/-- Helper for C8: membership in a duplicated list. -/
theorem mem_dup {α : Type} {x : α} :
    ∀ {l : List α}, x ∈ Statistics.dup l ↔ x ∈ l := by
  intro l
  induction l with
  | nil => simp [Statistics.dup]
  | cons a t ih => simp [Statistics.dup, ih, List.mem_cons, or_assoc, or_self]

/-- Helper for C8: duplicating every element preserves sortedness. -/
theorem dup_sorted : ∀ {l : List ℚ}, l.Sorted (· ≤ ·) →
    (Statistics.dup l).Sorted (· ≤ ·) := by
  intro l
  induction l with
  | nil => intro _; simp [Statistics.dup]
  | cons a t ih =>
    intro h
    rw [List.sorted_cons] at h
    have hs := ih h.2
    show ((a :: a :: Statistics.dup t).Sorted (· ≤ ·))
    rw [List.sorted_cons, List.sorted_cons]
    refine ⟨?_, ?_, hs⟩
    · intro b hb
      rcases List.mem_cons.mp hb with hb | hb
      · exact hb ▸ le_refl a
      · exact h.1 b (mem_dup.mp hb)
    · intro b hb
      exact h.1 b (mem_dup.mp hb)

/-- Helper for C8: `dup l` is a permutation of `l ++ l`. -/
theorem dup_perm {α : Type} :
    ∀ l : List α, List.Perm (Statistics.dup l) (l ++ l) := by
  intro l
  induction l with
  | nil => simp [Statistics.dup]
  | cons a t ih =>
    show List.Perm (a :: a :: Statistics.dup t) ((a :: t) ++ (a :: t))
    have h1 : List.Perm (a :: a :: Statistics.dup t) (a :: a :: (t ++ t)) :=
      (ih.cons a).cons a
    have h2 : List.Perm (a :: a :: (t ++ t)) (a :: (t ++ a :: t)) :=
      List.perm_middle.symm.cons a
    have h3 : a :: (t ++ a :: t) = (a :: t) ++ (a :: t) := by simp
    exact (h1.trans h2).trans (h3 ▸ List.Perm.refl _)

/-- Helper for C8: sorting a doubled list duplicates the sorted list. -/
theorem sort_append_self (data : List ℚ) :
    Statistics.pySorted (data ++ data) = Statistics.dup (Statistics.pySorted data) := by
  have hperm : List.Perm (Statistics.pySorted (data ++ data))
      (Statistics.dup (Statistics.pySorted data)) := by
    refine (List.perm_insertionSort _ _).trans ?_
    have h1 : List.Perm (data ++ data)
        (Statistics.pySorted data ++ Statistics.pySorted data) :=
      ((List.perm_insertionSort _ data).append (List.perm_insertionSort _ data)).symm
    exact h1.trans (dup_perm (Statistics.pySorted data)).symm
  exact List.eq_of_perm_of_sorted hperm (List.sorted_insertionSort _ _)
    (dup_sorted (List.sorted_insertionSort _ _))

/-- Helper for C8: even positions of a duplicated list. -/
theorem dup_getD_even {α : Type} :
    ∀ (l : List α) (i : ℕ) (d : α),
      (Statistics.dup l).getD (2 * i) d = l.getD i d := by
  intro l
  induction l with
  | nil => intro i d; simp [Statistics.dup]
  | cons a t ih =>
    intro i d
    cases i with
    | zero => simp [Statistics.dup]
    | succ k =>
      have h2 : 2 * (k + 1) = 2 * k + 1 + 1 := by ring
      show (a :: a :: Statistics.dup t).getD (2 * (k + 1)) d = (a :: t).getD (k + 1) d
      rw [h2, List.getD_cons_succ, List.getD_cons_succ, List.getD_cons_succ]
      exact ih k d

/-- Helper for C8: odd positions of a duplicated list. -/
theorem dup_getD_odd {α : Type} :
    ∀ (l : List α) (i : ℕ) (d : α),
      (Statistics.dup l).getD (2 * i + 1) d = l.getD i d := by
  intro l
  induction l with
  | nil => intro i d; simp [Statistics.dup]
  | cons a t ih =>
    intro i d
    cases i with
    | zero => simp [Statistics.dup]
    | succ k =>
      have h2 : 2 * (k + 1) + 1 = 2 * k + 1 + 1 + 1 := by ring
      show (a :: a :: Statistics.dup t).getD (2 * (k + 1) + 1) d = (a :: t).getD (k + 1) d
      rw [h2, List.getD_cons_succ, List.getD_cons_succ, List.getD_cons_succ]
      exact ih k d

/-- Helper for C8: the length of a duplicated list. -/
theorem dup_length {α : Type} : ∀ l : List α,
    (Statistics.dup l).length = 2 * l.length := by
  intro l
  induction l with
  | nil => simp [Statistics.dup]
  | cons a t ih =>
    show (a :: a :: Statistics.dup t).length = 2 * (a :: t).length
    simp [ih]
    ring

/-- C8: duplicating every data point leaves the median unchanged, for both
odd and even original sizes. -/
theorem median_double_data (data : List ℚ) (h : data ≠ []) :
    Statistics.median (data ++ data) = Statistics.median data := by
  have hlen0 : (Statistics.pySorted data).length = data.length := by
    simp [Statistics.pySorted, List.length_insertionSort]
  have hn : (Statistics.pySorted data).length ≠ 0 := by
    rw [hlen0]
    exact fun hc => h (List.length_eq_zero.mp hc)
  simp only [Statistics.median, sort_append_self data]
  set t := Statistics.pySorted data with ht
  rw [dup_length t]
  rw [if_neg (by omega : ¬(2 * t.length = 0)),
      if_neg (by omega : ¬(2 * t.length % 2 = 1)),
      if_neg hn]
  have hdiv : 2 * t.length / 2 = t.length := by omega
  rw [hdiv]
  rcases Nat.even_or_odd t.length with he | ho
  · obtain ⟨k, hk⟩ := he
    have hk2 : t.length = 2 * k := by omega
    have hkpos : 1 ≤ k := by omega
    have hmod : ¬(t.length % 2 = 1) := by omega
    rw [if_neg hmod]
    have e1 : t.length - 1 = 2 * (k - 1) + 1 := by omega
    have e2 : t.length = 2 * k := hk2
    have e3 : t.length / 2 - 1 = k - 1 := by omega
    have e4 : t.length / 2 = k := by omega
    have e3b : 2 * k / 2 - 1 = k - 1 := by omega
    have e4b : 2 * k / 2 = k := by omega
    rw [e1, e2, e3b, e4b, dup_getD_odd, dup_getD_even]
  · obtain ⟨k, hk⟩ := ho
    have hmod : t.length % 2 = 1 := by omega
    rw [if_pos hmod]
    have e1 : t.length - 1 = 2 * k := by omega
    have e2 : t.length = 2 * k + 1 := hk
    have e3 : t.length / 2 = k := by omega
    have e3b : (2 * k + 1) / 2 = k := by omega
    rw [e1, e2, e3b, dup_getD_even, dup_getD_odd]
    rw [Except.ok.injEq]
    ring

/-- C8 witness: doubling `[1, 2]` leaves the median unchanged. -/
theorem median_double_data_witness :
    Statistics.median ([1, 2] ++ [1, 2] : List ℚ) = Statistics.median [1, 2] :=
  median_double_data [1, 2] (by simp)

theorem mem_firstKeys {α : Type} [DecidableEq α] (y : α) :
    ∀ l : List α, y ∈ Statistics.firstKeys l ↔ y ∈ l := by
  intro l
  induction l using Statistics.firstKeys.induct with
  | case1 => simp [Statistics.firstKeys]
  | case2 a t ih =>
    rw [Statistics.firstKeys]
    by_cases hy : y = a
    · subst hy; simp
    · simp only [List.mem_cons, hy, false_or]
      rw [ih, List.mem_filter]
      simp [hy]

theorem mode_count_le {α : Type} [DecidableEq α] (data : List α) (x : α)
    (h : Statistics.mode data = .ok x) :
    ∀ y : α, data.count y ≤ data.count x := by
  -- the frequency table is a singleton (x, c)
  have hsing : ∃ p : α × ℕ, Statistics._counts data = [p] ∧ p.1 = x := by
    unfold Statistics.mode at h
    rcases hc : Statistics._counts data with _ | ⟨p, rest⟩
    · rw [hc] at h; exact absurd h (by simp)
    · rcases rest with _ | ⟨q, rest2⟩
      · refine ⟨p, rfl, ?_⟩
        rw [hc] at h
        simpa using h
      · rw [hc] at h; exact absurd h (by simp)
  obtain ⟨p, hc, hx⟩ := hsing
  unfold Statistics._counts at hc
  rcases htab : List.insertionSort Statistics.freqGE
      ((Statistics.firstKeys data).map (fun a => (a, data.count a))) with _ | ⟨t, rest⟩
  · rw [htab] at hc; exact absurd hc (by simp)
  · rw [htab] at hc
    simp only [List.takeWhile_cons] at hc
    rw [if_pos (by simp)] at hc
    have htp : t = p := (List.cons.injEq _ _ _ _).mp hc |>.1
    subst htp
    -- every entry of the sorted table has frequency at most t.2
    have hsorted := List.sorted_insertionSort Statistics.freqGE
      ((Statistics.firstKeys data).map (fun a => (a, data.count a)))
    rw [htab, List.sorted_cons] at hsorted
    -- t.2 is the count of x
    have htmem : t ∈ List.insertionSort Statistics.freqGE
        ((Statistics.firstKeys data).map (fun a => (a, data.count a))) := by
      rw [htab]; exact List.mem_cons_self _ _
    have ht2 : t.2 = data.count x := by
      rw [(List.perm_insertionSort _ _).mem_iff, List.mem_map] at htmem
      obtain ⟨a, _, ha2⟩ := htmem
      have h1 : t.1 = a := by rw [← ha2]
      have h2 : t.2 = data.count a := by rw [← ha2]
      rw [h2, ← h1, hx]
    intro y
    by_cases hy : y ∈ data
    · have hmem : (y, data.count y) ∈ List.insertionSort Statistics.freqGE
          ((Statistics.firstKeys data).map (fun a => (a, data.count a))) := by
        rw [(List.perm_insertionSort _ _).mem_iff, List.mem_map]
        exact ⟨y, (mem_firstKeys y data).mpr hy, rfl⟩
      rw [htab, List.mem_cons] at hmem
      rcases hmem with hmem | hmem
      · have : data.count y = t.2 := by rw [show data.count y = (y, data.count y).2 from rfl, hmem]
        rw [this, ht2]
      · have := hsorted.1 _ hmem
        unfold Statistics.freqGE at this
        calc data.count y = (y, data.count y).2 := rfl
          _ ≤ t.2 := this
          _ = data.count x := ht2
    · rw [List.count_eq_zero.mpr hy]
      exact Nat.zero_le _

/-- C4 (amended): `mode` returns a value only when it is a (the) most
frequent one — every valid result maximizes the count over all values —
and on `[1, 1, 2, 3, 3, 3, 3, 4]` it returns 3; on
`[5, 3, 2, 1, 5, 4, 2, 2, 5]` (top frequency shared by 2 and 5) and on
empty input it raises StatisticsError.  The source has no `max_modes`
parameter. -/
theorem mode_unique_max_frequency :
    (∀ (data : List ℤ) (x : ℤ), Statistics.mode data = .ok x →
        ∀ y : ℤ, data.count y ≤ data.count x)
    ∧ Statistics.mode ([1,1,2,3,3,3,3,4] : List ℤ) = .ok 3
    ∧ Statistics.mode ([5,3,2,1,5,4,2,2,5] : List ℤ)
        = .error (.statisticsError "no unique mode")
    ∧ Statistics.mode ([] : List ℤ)
        = .error (.statisticsError "no mode for empty data") := by
  refine ⟨fun data x h y => mode_count_le data x h y, ?_, ?_, ?_⟩ <;>
    with_unfolding_all decide

/-- C4 witness: on `[1, 1, 2, 3, 3, 3, 3, 4]` the mode is 3 and, by the
theorem, the count of 1 is at most the count of 3. -/
theorem mode_unique_max_frequency_witness :
    ([1,1,2,3,3,3,3,4] : List ℤ).count 1 ≤ ([1,1,2,3,3,3,3,4] : List ℤ).count 3 :=
  mode_unique_max_frequency.1 [1,1,2,3,3,3,3,4] 3 (by with_unfolding_all rfl) 1

/-- Helper for C1: on ints and Fractions, `_exact_ratio` returns an integer
numerator and positive integer denominator whose quotient is the exact
value. -/
theorem exact_ratio_int_frac (x : Statistics.PyNum) (hx : Statistics.intOrFrac x) :
    ∃ (n : ℤ) (d : ℕ), Statistics._exact_ratio x = (n, Statistics.Den.nat d)
      ∧ (n : ℚ) / (d : ℚ) = Statistics.val x := by
  cases x with
  | int n => exact ⟨n, 1, rfl, by simp [Statistics.val]⟩
  | fraction q => exact ⟨q.num, q.den, rfl, Rat.num_div_den q⟩
  | decimal s ds e =>
      rcases hx with h | h <;> simp [Statistics.kindOf] at h

/-- Helper for C1: the partials total of a cons. -/
theorem partsTotal_cons (p : Statistics.Den × ℤ) (ps : List (Statistics.Den × ℤ)) :
    Statistics.partsTotal (p :: ps) = Statistics.partValue p + Statistics.partsTotal ps := by
  simp [Statistics.partsTotal]

/-- Helper for C1: accumulating `n` under the integer denominator `d` adds
`n/d` to the exact total of the partials map. -/
theorem updateParts_total (ps : List (Statistics.Den × ℤ)) (d : ℕ) (n : ℤ) :
    Statistics.partsTotal (Statistics.updateParts ps (Statistics.Den.nat d) n)
      = Statistics.partsTotal ps + (n : ℚ) / (d : ℚ) := by
  induction ps with
  | nil => simp [Statistics.updateParts, Statistics.partsTotal, Statistics.partValue]
  | cons p rest ih =>
    obtain ⟨pd, pn⟩ := p
    by_cases hd : pd = Statistics.Den.nat d
    · subst hd
      rw [Statistics.updateParts, if_pos rfl, partsTotal_cons, partsTotal_cons]
      simp only [Statistics.partValue]
      push_cast
      ring
    · rw [Statistics.updateParts, if_neg hd, partsTotal_cons, partsTotal_cons, ih]
      ring

/-- Helper for C1: updating at an integer key keeps all keys integral. -/
theorem updateParts_keys (ps : List (Statistics.Den × ℤ)) (d : Statistics.Den) (n : ℤ)
    (hps : ∀ p ∈ ps, p.1 ≠ Statistics.Den.nonint) (hd : d ≠ Statistics.Den.nonint) :
    ∀ p ∈ Statistics.updateParts ps d n, p.1 ≠ Statistics.Den.nonint := by
  induction ps with
  | nil => intro p hp; rw [Statistics.updateParts] at hp; simp at hp; rw [hp]; exact hd
  | cons q rest ih =>
    obtain ⟨qd, qn⟩ := q
    intro p hp
    rw [Statistics.updateParts] at hp
    by_cases hq : qd = d
    · rw [if_pos hq] at hp
      rcases List.mem_cons.mp hp with hp | hp
      · rw [hp]; exact hps (qd, qn) (List.mem_cons_self _ _)
      · exact hps p (List.mem_cons_of_mem _ hp)
    · rw [if_neg hq] at hp
      rcases List.mem_cons.mp hp with hp | hp
      · rw [hp]; exact hps (qd, qn) (List.mem_cons_self _ _)
      · exact ih (fun r hr => hps r (List.mem_cons_of_mem _ hr)) p hp

/-- Helper for C1: the loop of `sum`, on int/Fraction data starting from an
int or Fraction type, succeeds, keeps the running kind in {int, Fraction}
(int only when everything is an int), keeps all denominator keys integral,
and adds exactly the mathematical sum of the data to the partials total. -/
theorem sumLoop_spec :
    ∀ (data : List Statistics.PyNum) (T : Statistics.PyKind)
      (ps : List (Statistics.Den × ℤ)),
      (∀ x ∈ data, Statistics.intOrFrac x) →
      (T = .int ∨ T = .fraction) →
      (∀ p ∈ ps, p.1 ≠ Statistics.Den.nonint) →
      ∃ T' ps', Statistics.sumLoop data T ps = .ok (T', ps')
        ∧ (T' = .int ∨ T' = .fraction)
        ∧ (T' = .int → T = .int ∧ ∀ x ∈ data, Statistics.kindOf x = .int)
        ∧ ((∀ x ∈ data, Statistics.kindOf x = .int) → T' = T)
        ∧ (∀ p ∈ ps', p.1 ≠ Statistics.Den.nonint)
        ∧ Statistics.partsTotal ps'
            = Statistics.partsTotal ps + ((data.map Statistics.val).sum) := by
  intro data
  induction data with
  | nil =>
    intro T ps _ hT hps
    exact ⟨T, ps, rfl, hT, fun h => ⟨h, by simp⟩, fun _ => rfl, hps, by simp⟩
  | cons x xs ih =>
    intro T ps hall hT hps
    have hx : Statistics.intOrFrac x := hall x (List.mem_cons_self _ _)
    -- the coercion step stays within int/fraction
    have hc : ∃ T2, Statistics._coerce_types T (Statistics.kindOf x) = .ok T2
        ∧ (T2 = .int ∨ T2 = .fraction)
        ∧ (T2 = .int → T = .int ∧ Statistics.kindOf x = .int)
        ∧ (Statistics.kindOf x = .int → T2 = T) := by
      rcases hT with h | h <;> rcases hx with h2 | h2 <;> rw [h, h2]
      · exact ⟨.int, rfl, Or.inl rfl, fun _ => ⟨rfl, rfl⟩, fun _ => rfl⟩
      · refine ⟨.fraction, rfl, Or.inr rfl, ?_, ?_⟩
        · intro hcon; exact absurd hcon (by simp)
        · intro hcon; exact absurd hcon (by simp [Statistics.PyKind])
      · refine ⟨.fraction, rfl, Or.inr rfl, ?_, fun _ => rfl⟩
        intro hcon; exact absurd hcon (by simp)
      · refine ⟨.fraction, rfl, Or.inr rfl, ?_, fun _ => rfl⟩
        intro hcon; exact absurd hcon (by simp)
    obtain ⟨T2, hc1, hc2, hc3, hc4⟩ := hc
    obtain ⟨n, d, her, hval⟩ := exact_ratio_int_frac x hx
    have hkeys2 : ∀ p ∈ Statistics.updateParts ps (Statistics.Den.nat d) n,
        p.1 ≠ Statistics.Den.nonint :=
      updateParts_keys ps _ n hps (by simp)
    obtain ⟨T', ps', h1, h2, h3, h4, h5, h6⟩ :=
      ih T2 (Statistics.updateParts ps (Statistics.Den.nat d) n)
        (fun y hy => hall y (List.mem_cons_of_mem _ hy)) hc2 hkeys2
    refine ⟨T', ps', ?_, h2, ?_, ?_, h5, ?_⟩
    · rw [Statistics.sumLoop, hc1, her]
      exact h1
    · intro hint
      obtain ⟨hT2, hxsint⟩ := h3 hint
      obtain ⟨hTint, hxint⟩ := hc3 hT2
      refine ⟨hTint, ?_⟩
      intro y hy
      rcases List.mem_cons.mp hy with hy | hy
      · rw [hy]; exact hxint
      · exact hxsint y hy
    · intro hallint
      have hxint := hallint x (List.mem_cons_self _ _)
      have hT2T : T2 = T := hc4 hxint
      rw [← hT2T]
      exact h4 (fun y hy => hallint y (List.mem_cons_of_mem _ hy))
    · rw [h6, updateParts_total, hval]
      simp only [List.map_cons, List.sum_cons]
      ring

/-- Helper for C1: the exact value of an int list. -/
theorem val_map_int (l : List ℤ) :
    ((l.map Statistics.PyNum.int).map Statistics.val).sum = ((l.sum : ℤ) : ℚ) := by
  induction l with
  | nil => simp
  | cons a t ih =>
    simp only [List.map_cons, List.sum_cons, Statistics.val, ih]
    push_cast
    ring

/-- Helper for C1: a sum of integer-kind values is an integer. -/
theorem int_data_sum (data : List Statistics.PyNum)
    (h : ∀ x ∈ data, Statistics.kindOf x = .int) :
    ∃ m : ℤ, ((data.map Statistics.val).sum) = (m : ℚ) := by
  induction data with
  | nil => exact ⟨0, by simp⟩
  | cons x xs ih =>
    obtain ⟨m, hm⟩ := ih (fun y hy => h y (List.mem_cons_of_mem _ hy))
    have hx := h x (List.mem_cons_self _ _)
    cases x with
    | int n =>
      refine ⟨n + m, ?_⟩
      simp only [List.map_cons, List.sum_cons, Statistics.val, hm]
      push_cast
      ring
    | fraction q => simp [Statistics.kindOf] at hx
    | decimal s ds e => simp [Statistics.kindOf] at hx

/-- Helper for C1: the initial partials map `{1: 0}` totals zero. -/
theorem partsTotal_init : Statistics.partsTotal [(Statistics.Den.nat 1, 0)] = 0 := by
  simp [Statistics.partsTotal, Statistics.partValue]

/-- C1 (amended): the module `sum` is exact on integer and rational data:
on any list of ints (with the default start 0) it returns exactly the
integer sum, and on any mix of ints and Fractions it returns a valid result
whose exact rational value is the mathematical sum of the inputs.  (Decimal
input is excluded: a positive-exponent Decimal raises TypeError, see the
counterexample, and the Decimal result branch rounds to the context
precision in the source.) -/
theorem sum_exact_int_fraction :
    (∀ l : List ℤ,
      Statistics.sum (l.map Statistics.PyNum.int) (Statistics.PyNum.int 0)
        = .ok (.int l.sum))
    ∧ (∀ data : List Statistics.PyNum,
        (∀ x ∈ data, Statistics.intOrFrac x) →
        (Statistics.sum data (Statistics.PyNum.int 0)).map Statistics.sval
          = .ok ((data.map Statistics.val).sum)) := by
  constructor
  · intro l
    have hall : ∀ x ∈ l.map Statistics.PyNum.int, Statistics.intOrFrac x := by
      intro x hx
      rw [List.mem_map] at hx
      obtain ⟨a, _, ha⟩ := hx
      rw [← ha]
      exact Or.inl rfl
    obtain ⟨T', ps', h1, h2, h3, h4, h5, h6⟩ :=
      sumLoop_spec (l.map Statistics.PyNum.int) .int [(Statistics.Den.nat 1, 0)]
        hall (Or.inl rfl) (by simp)
    have hintdata : ∀ x ∈ l.map Statistics.PyNum.int, Statistics.kindOf x = .int := by
      intro x hx
      rw [List.mem_map] at hx
      obtain ⟨a, _, ha⟩ := hx
      rw [← ha]
      rfl
    have hT : T' = .int := h4 hintdata
    subst hT
    unfold Statistics.sum
    simp only [Statistics.kindOf, Statistics._exact_ratio]
    rw [h1]
    dsimp only
    have hany : (ps'.any (fun p => p.1 = Statistics.Den.nonint)) = false := by
      rw [List.any_eq_false]
      intro p hp
      simpa using h5 p hp
    rw [hany]
    simp only [Bool.false_eq_true, if_false]
    have htot : Statistics.partsTotal ps' = ((l.sum : ℤ) : ℚ) := by
      rw [h6, partsTotal_init, val_map_int]
      ring
    simp only [htot]
    rw [if_pos (Rat.den_intCast l.sum)]
    rw [Rat.num_intCast]
  · intro data hall
    obtain ⟨T', ps', h1, h2, h3, h4, h5, h6⟩ :=
      sumLoop_spec data .int [(Statistics.Den.nat 1, 0)] hall (Or.inl rfl) (by simp)
    unfold Statistics.sum
    simp only [Statistics.kindOf, Statistics._exact_ratio]
    rw [h1]
    have hany : (ps'.any (fun p => p.1 = Statistics.Den.nonint)) = false := by
      rw [List.any_eq_false]
      intro p hp
      simpa using h5 p hp
    have htot : Statistics.partsTotal ps' = (data.map Statistics.val).sum := by
      rw [h6, partsTotal_init]
      ring
    rcases h2 with hT | hT <;> subst hT
    · obtain ⟨_, hintall⟩ := h3 rfl
      obtain ⟨m, hm⟩ := int_data_sum data hintall
      dsimp only
      rw [hany]
      simp only [Bool.false_eq_true, if_false, htot, hm]
      rw [if_pos (Rat.den_intCast m)]
      simp only [Except.map, Statistics.sval]
      rw [Rat.num_intCast, ← hm]
    · dsimp only
      rw [hany]
      simp only [Bool.false_eq_true, if_false, htot]
      simp only [Except.map, Statistics.sval]

/-- C1 witness: summing `[Fraction(1, 2), 1]` yields a valid result of exact
value 3/2. -/
theorem sum_exact_int_fraction_witness :
    (Statistics.sum [Statistics.PyNum.fraction (1/2), Statistics.PyNum.int 1]
      (Statistics.PyNum.int 0)).map Statistics.sval = .ok (3/2) := by
  have h := sum_exact_int_fraction.2
    [Statistics.PyNum.fraction (1/2), Statistics.PyNum.int 1]
    (by with_unfolding_all decide)
  norm_num [Statistics.val] at h
  exact h

/-- Helper for C3: rounding a rank up exactly on a nonzero fractional part
is the ceiling. -/
theorem ceil_via_floor (q : ℚ) :
    (if 0 < q - ⌊q⌋ then ⌊q⌋ + 1 else ⌊q⌋) = ⌈q⌉ := by
  by_cases h : 0 < q - ⌊q⌋
  · rw [if_pos h]
    refine le_antisymm ?_ ?_
    · have h1 : (⌊q⌋ : ℚ) < q := by linarith
      have h2 : q ≤ (⌈q⌉ : ℚ) := Int.le_ceil q
      have h3 : (⌊q⌋ : ℚ) < (⌈q⌉ : ℚ) := lt_of_lt_of_le h1 h2
      exact Int.add_one_le_iff.mpr (by exact_mod_cast h3)
    · rw [Int.ceil_le]
      push_cast
      linarith [Int.lt_floor_add_one q]
  · rw [if_neg h]
    have hq : q = ((⌊q⌋ : ℤ) : ℚ) := by
      have := Int.floor_le q
      have := not_lt.mp h
      linarith
    rw [hq]
    simp [Int.floor_intCast, Int.ceil_intCast]

/-- Helper for C3: the ceiling of a clamped continuous rank is the clamped
integer ceiling. -/
theorem ceil_clampRank (n : ℕ) (q : ℚ) :
    ⌈RQuantile.clampRank n q⌉ = RQuantile.clampIdx n ⌈q⌉ := by
  unfold RQuantile.clampRank RQuantile.clampIdx
  rcases le_total q ((n : ℕ) : ℚ) with hqn | hqn
  · have hcqn : ⌈q⌉ ≤ (n : ℤ) := Int.ceil_le.mpr (by exact_mod_cast hqn)
    rw [min_eq_left hqn, min_eq_left hcqn]
    rcases le_total q 1 with hq1 | hq1
    · have hc1 : ⌈q⌉ ≤ 1 := Int.ceil_le.mpr (by exact_mod_cast hq1)
      rw [max_eq_left hq1, max_eq_left hc1, Int.ceil_one]
    · have hc1 : (1 : ℤ) ≤ ⌈q⌉ := by
        have := Int.ceil_mono hq1
        rwa [Int.ceil_one] at this
      rw [max_eq_right hq1, max_eq_right hc1]
  · have hcqn : (n : ℤ) ≤ ⌈q⌉ := by
      have := Int.ceil_mono hqn
      rwa [Int.ceil_natCast] at this
    rw [min_eq_right hqn, min_eq_right hcqn]
    rcases le_total ((n : ℕ) : ℚ) 1 with hn1 | hn1
    · rw [max_eq_left hn1, max_eq_left (by exact_mod_cast hn1 : (n : ℤ) ≤ 1),
          Int.ceil_one]
    · rw [max_eq_right hn1, max_eq_right (by exact_mod_cast hn1 : (1 : ℤ) ≤ (n : ℤ)),
          Int.ceil_natCast]

/-- Helper for C3: with interpolation parameters `c = 0`, `d = 1` the
four-parameter rule is plain linear interpolation at its rank. -/
theorem param_cont (data : List ℚ) (p a b : ℚ) (h : ℚ)
    (heq : a + ((data.length : ℚ) + b) * p = h) :
    RQuantile.quantileParam data p a b 0 1 = RQuantile.interpAt data h := by
  unfold RQuantile.quantileParam RQuantile.interpAt
  dsimp only
  rw [heq]
  ring

/-- C3 (amended): for every data list and fraction p, each of the named
schemes 1 and 4-9 agrees with the four-parameter formula at its
corresponding parameter tuple (the correspondence used by the repository
test suite).  Scheme 2 has no four-parameter equivalent and scheme 3
disagrees with its nominal tuple (1/2, 0, 0, 0) at half-way ties (see the
counterexample). -/
theorem quantile_named_schemes_match_params (data : List ℚ) (p : ℚ) :
    RQuantile.quantileNamed 1 data p = RQuantile.quantileParam data p 0 0 1 0
    ∧ RQuantile.quantileNamed 4 data p = RQuantile.quantileParam data p 0 0 0 1
    ∧ RQuantile.quantileNamed 5 data p = RQuantile.quantileParam data p (1/2) 0 0 1
    ∧ RQuantile.quantileNamed 6 data p = RQuantile.quantileParam data p 0 1 0 1
    ∧ RQuantile.quantileNamed 7 data p = RQuantile.quantileParam data p 1 (-1) 0 1
    ∧ RQuantile.quantileNamed 8 data p = RQuantile.quantileParam data p (1/3) (1/3) 0 1
    ∧ RQuantile.quantileNamed 9 data p = RQuantile.quantileParam data p (3/8) (1/4) 0 1 := by
  refine ⟨?_, ?_, ?_, ?_, ?_, ?_, ?_⟩
  · show RQuantile.nthData data (RQuantile.clampIdx data.length
        (if 0 < (data.length : ℚ) * p - ⌊(data.length : ℚ) * p⌋
          then ⌊(data.length : ℚ) * p⌋ + 1 else ⌊(data.length : ℚ) * p⌋))
      = RQuantile.quantileParam data p 0 0 1 0
    rw [ceil_via_floor, ← ceil_clampRank]
    unfold RQuantile.quantileParam
    dsimp only
    have e : (0 : ℚ) + ((data.length : ℚ) + 0) * p = (data.length : ℚ) * p := by ring
    rw [e]
    ring
  · exact (param_cont data p 0 0 _ (by simp only [RQuantile.contRank]; ring)).symm
  · exact (param_cont data p (1/2) 0 _ (by simp only [RQuantile.contRank]; ring)).symm
  · exact (param_cont data p 0 1 _ (by simp only [RQuantile.contRank]; ring)).symm
  · exact (param_cont data p 1 (-1) _ (by simp only [RQuantile.contRank]; ring)).symm
  · exact (param_cont data p (1/3) (1/3) _ (by simp only [RQuantile.contRank]; ring)).symm
  · exact (param_cont data p (3/8) (1/4) _ (by simp only [RQuantile.contRank]; ring)).symm
